import Mathlib

/-!
# Verification of the `yasinfavorites` favorites state engine

A shallow embedding of the favorites state engine implemented in
`out/extension.js` of the `yasinarshad/yasinfavorites` VS Code extension,
together with theorems about its operations.

Modelling conventions:
* JavaScript strings are modelled as `List Char` (`JSStr`); `===` is list
  equality, `String.prototype.startsWith` is `List.isPrefixOf`, and `+` is
  list append.
* The Node `path` module (POSIX flavour) is modelled by the functions
  `isAbsolute`, `splitSegs`, `joinSegs`, `normalizePath`, `pathJoin`,
  `pathRelative`, `basename` and `dirname` below.
* The filesystem is modelled by explicit predicates (`fsEx : JSStr → Bool`
  for `fs.existsSync`, a stat oracle for `fs.statSync`); filesystem mutation
  commands are embedded as the store/clipboard transformations they perform,
  with failure possibilities made explicit where a claim concerns them.
* `undefined`-able values are `Option`s; tree items carry their
  `value`/`itemPath` coalesced into an `Option JSStr` (`none` for category
  pseudo-nodes, which have no concrete path).
-/

/-- JavaScript strings, modelled as lists of characters. -/
abbrev JSStr := List Char

/-- Embed a Lean string literal as a `JSStr`. -/
def js (s : String) : JSStr := s.toList

/-! ## Model of the Node `path` module (POSIX) -/

/-- Model of Node `path.isAbsolute` (POSIX): the path starts with `/`. -/
def isAbsolute : JSStr → Bool
  | [] => false
  | c :: _ => c = '/'

/-- Split a string at every `/` (as `String.prototype.split('/')` does). -/
def splitSegs : JSStr → List JSStr
  | [] => [[]]
  | c :: rest =>
    if c = '/' then [] :: splitSegs rest
    else
      match splitSegs rest with
      | s :: ss => (c :: s) :: ss
      | [] => [[c]]

/-- Join segments with `/` separators. -/
def joinSegs : List JSStr → JSStr
  | [] => []
  | [s] => s
  | s :: ss => s ++ '/' :: joinSegs ss

/-- One step of Node path normalisation: drop empty and `.` segments and
resolve `..` against the accumulated segment prefix. -/
def normStep (abs : Bool) (acc : List JSStr) (seg : JSStr) : List JSStr :=
  if seg = [] ∨ seg = ['.'] then acc
  else if seg = ['.', '.'] then
    match acc.getLast? with
    | some l => if l = ['.', '.'] then acc ++ [seg] else acc.dropLast
    | none => if abs then [] else [seg]
  else acc ++ [seg]

/-- Normalise a segment list (Node `path.normalize` on the segment level). -/
def normSegs (abs : Bool) (segs : List JSStr) : List JSStr :=
  segs.foldl (normStep abs) []

/-- Model of Node `path.normalize` (POSIX), up to trailing-slash
preservation (irrelevant for the paths handled by the extension). -/
def normalizePath (p : JSStr) : JSStr :=
  let abs := isAbsolute p
  let segs := normSegs abs (splitSegs p)
  if abs then '/' :: joinSegs segs
  else if segs = [] then ['.'] else joinSegs segs

/-- Model of Node `path.join(a, b)` (POSIX): drop empty parts, join with a
separator and normalise. -/
def pathJoin (a b : JSStr) : JSStr :=
  let parts := [a, b].filter fun s => decide (s ≠ [])
  if parts = [] then ['.'] else normalizePath (joinSegs parts)

/-- Strip the longest common leading run from two segment lists. -/
def dropCommon : List JSStr → List JSStr → List JSStr × List JSStr
  | a :: as, b :: bs => if a = b then dropCommon as bs else (a :: as, b :: bs)
  | as, bs => (as, bs)

/-- Model of Node `path.relative(from, to)` (POSIX) for absolute
arguments: `..` for every uncommon `from` segment, then the uncommon `to`
segments. -/
def pathRelative (f t : JSStr) : JSStr :=
  let pair := dropCommon (normSegs true (splitSegs f)) (normSegs true (splitSegs t))
  joinSegs (List.replicate pair.1.length ['.', '.'] ++ pair.2)

/-- Model of Node `path.basename` (POSIX): the last non-empty segment. -/
def basename (p : JSStr) : JSStr :=
  match ((splitSegs p).filter fun s => decide (s ≠ [])).getLast? with
  | some s => s
  | none => if isAbsolute p then ['/'] else []

/-- Model of Node `path.dirname` (POSIX): drop the last non-empty segment. -/
def dirname (p : JSStr) : JSStr :=
  let parts := (splitSegs p).filter fun s => decide (s ≠ [])
  if isAbsolute p then
    match parts.dropLast with
    | [] => ['/']
    | ps => '/' :: joinSegs ps
  else
    match parts.dropLast with
    | [] => ['.']
    | ps => joinSegs ps

/-! ## The Path Normalizer (`toRelativePath` / `toAbsolutePath` in
`out/extension.js`).  `root` is the workspace root (`getWorkspaceRoot`),
`none` when no workspace folder is open. -/

/-- `toRelativePath` from `out/extension.js`: store a path relative to the
workspace root when it lies inside it (`''` becomes the `'.'` sentinel),
keep it absolute otherwise. -/
def toRelativePath (root : Option JSStr) (absolutePath : JSStr) : JSStr :=
  match root with
  | none => absolutePath
  | some r =>
    if r.isPrefixOf absolutePath then
      let rel := pathRelative r absolutePath
      if rel = [] then ['.'] else rel
    else absolutePath

/-- `toAbsolutePath` from `out/extension.js`: an absolute stored value
passes through, a relative one is joined against the root. -/
def toAbsolutePath (root : Option JSStr) (storedPath : JSStr) : JSStr :=
  match root with
  | none => storedPath
  | some r => if isAbsolute storedPath then storedPath else pathJoin r storedPath

/-! ## Normal path segments -/

/-- A path segment as produced by a normalised absolute path: non-empty,
free of separators, and not a `.`/`..` marker. -/
def NormalSeg (s : JSStr) : Prop :=
  s ≠ [] ∧ '/' ∉ s ∧ s ≠ ['.'] ∧ s ≠ ['.', '.']

instance (s : JSStr) : Decidable (NormalSeg s) := by
  unfold NormalSeg; infer_instance


/-! ## Data model (§3): favorite entries, clipboard, sort mode -/

/-- The `type` field of a favorite item: `'file'` or `'folder'`. -/
inductive EntryType
  | file
  | folder
deriving DecidableEq

/-- A favorite entry `{ path, type, category? }` as kept in
`YasinFavoritesProvider.items` (`category` absent = root level). -/
structure FavoriteEntry where
  path : JSStr
  type : EntryType
  category : Option JSStr
deriving DecidableEq

/-- The clipboard operation tag (`clipboardOperation` in `extension.js`),
`none` when the clipboard is empty. -/
inductive ClipOp
  | cut
  | copy
deriving DecidableEq

/-- The module-level clipboard state of `extension.js`
(`clipboardPaths` / `clipboardOperation`). -/
structure ClipboardState where
  paths : List JSStr
  operation : Option ClipOp
deriving DecidableEq

/-- The persisted `sortOrder` setting. -/
inductive SortOrder
  | ASC
  | DESC
  | MODIFIED
  | MANUAL
deriving DecidableEq

/-- A tree item as seen by a command handler, reduced to its coalesced
`value`/`itemPath` payload; `none` models a category pseudo-node, which has
no concrete filesystem path. -/
abbrev UIItem := Option JSStr

/-! ## Generic list helpers shared by the store operations -/

/-- Rewrite the first element satisfying `p` (the `Array.prototype.find`
followed by a field assignment pattern used throughout the provider). -/
def updateFirst {α : Type} (p : α → Bool) (f : α → α) : List α → List α
  | [] => []
  | a :: rest => if p a then f a :: rest else a :: updateFirst p f rest

/-- Swap the elements at two indices (the JS destructuring swap
`[items[i], items[j]] = [items[j], items[i]]`). -/
def listSwap {α : Type} (l : List α) (i j : Nat) : List α :=
  match l.get? i, l.get? j with
  | some a, some b => (l.set i b).set j a
  | _, _ => l

/-! ## Favorites store operations (`YasinFavoritesProvider`) -/

/-- `addFavorite(itemPath, type)`: reject a duplicate path with `false`,
else push `{ path, type }`. -/
def addFavorite (items : List FavoriteEntry) (itemPath : JSStr) (t : EntryType) :
    List FavoriteEntry × Bool :=
  if items.any fun item => decide (item.path = itemPath) then (items, false)
  else (items ++ [⟨itemPath, t, none⟩], true)

/-- `removeFavorite(itemPath)`: `findIndex` then `splice(index, 1)`. -/
def removeFavorite (items : List FavoriteEntry) (itemPath : JSStr) :
    List FavoriteEntry :=
  match items.findIdx? fun item => decide (item.path = itemPath) with
  | some i => items.eraseIdx i
  | none => items

/-- `moveToCategory(itemPath, categoryName)` restricted to the entry list:
set the `category` field of the first entry holding the path. -/
def moveToCategory (items : List FavoriteEntry) (itemPath categoryName : JSStr) :
    List FavoriteEntry :=
  updateFirst (fun item => decide (item.path = itemPath))
    (fun item => { item with category := some categoryName }) items

/-- `moveToRoot(itemPath)`: delete the `category` field of the first entry
holding the path. -/
def moveToRoot (items : List FavoriteEntry) (itemPath : JSStr) :
    List FavoriteEntry :=
  updateFirst (fun item => decide (item.path = itemPath))
    (fun item => { item with category := none }) items

/-- `renameCategory(oldName, newName)` restricted to the entry list:
rewrite the `category` field of every referencing entry. -/
def renameCategory (items : List FavoriteEntry) (oldName newName : JSStr) :
    List FavoriteEntry :=
  items.map fun item =>
    if item.category = some oldName then { item with category := some newName } else item

/-- The store effect shared by the `yasinFavorites.rename` command and the
Cut branch of `yasinFavorites.paste`: rewrite the `path` field of the first
entry holding `src` to `dst` (the entry object is mutated in place, so its
position and `category` are untouched). -/
def updateFavoritePath (items : List FavoriteEntry) (src dst : JSStr) :
    List FavoriteEntry :=
  updateFirst (fun item => decide (item.path = src))
    (fun item => { item with path := dst }) items

/-- The store effect of the `yasinFavorites.rename` command: the new path is
the old directory joined with the new name. -/
def renameCmdStore (items : List FavoriteEntry) (itemPath newName : JSStr) :
    List FavoriteEntry :=
  updateFavoritePath items itemPath (pathJoin (dirname itemPath) newName)

/-- The destination path a paste computes for a clipboard source:
`path.join(targetDir, path.basename(sourcePath))`. -/
def pasteDest (targetDir src : JSStr) : JSStr := pathJoin targetDir (basename src)

/-- The store effect of the Cut branch of `yasinFavorites.paste` over the
whole clipboard batch: for each source path still on disk, rename it into
the destination directory and rewrite the tracking entry (if any) in place.
Filesystem renames are assumed to succeed; `fsEx` models `fs.existsSync`. -/
def pasteCut (fsEx : JSStr → Bool) (targetDir : JSStr)
    (items : List FavoriteEntry) (clip : List JSStr) : List FavoriteEntry :=
  clip.foldl
    (fun its src =>
      if fsEx src then updateFavoritePath its src (pasteDest targetDir src) else its)
    items

/-! ## Selection resolution and the clipboard commands -/

/-- The two-tier resolution used by `cut`, `copy`, `delete` and `paste`:
`resource ? [resource] : treeView.selection`. -/
def resolvePrimaryOrSelection (resource : Option UIItem) (selection : List UIItem) :
    List UIItem :=
  match resource with
  | some r => [r]
  | none => selection

/-- The item resolution of `yasinFavorites.copyPath` (and
`copyRelativePath`):
`selectedItems?.length > 0 ? selectedItems : (resource ? [resource] : treeView.selection)`. -/
def copyPathItems (resource : Option UIItem) (selectedItems : Option (List UIItem))
    (selection : List UIItem) : List UIItem :=
  if 0 < (selectedItems.getD []).length then selectedItems.getD []
  else resolvePrimaryOrSelection resource selection

/-- The paths `copyPath` extracts: category pseudo-nodes (no
`value`/`itemPath`) are filtered out. -/
def copyPathPaths (resource : Option UIItem) (selectedItems : Option (List UIItem))
    (selection : List UIItem) : List JSStr :=
  (copyPathItems resource selectedItems selection).filterMap id

/-- The item resolution of `yasinFavorites.cut`/`copy` as a function of all
three host-provided inputs: the handler's signature is `(resource) => ...`,
so the explicit multi-select array VS Code passes as second argument is
ignored. -/
def cutCmdItemsFull (resource : Option UIItem) (_selectedItems : Option (List UIItem))
    (selection : List UIItem) : List UIItem :=
  resolvePrimaryOrSelection resource selection

/-- `yasinFavorites.cut`: replace the clipboard with the resolved paths and
the `'cut'` tag (no-op when nothing resolves). -/
def cutCmd (clip : ClipboardState) (resource : Option UIItem) (selection : List UIItem) :
    ClipboardState :=
  let items := resolvePrimaryOrSelection resource selection
  if 0 < items.length then ⟨items.filterMap id, some ClipOp.cut⟩ else clip

/-- `yasinFavorites.copy`: replace the clipboard with the resolved paths and
the `'copy'` tag. -/
def copyCmd (clip : ClipboardState) (resource : Option UIItem) (selection : List UIItem) :
    ClipboardState :=
  let items := resolvePrimaryOrSelection resource selection
  if 0 < items.length then ⟨items.filterMap id, some ClipOp.copy⟩ else clip

/-- The clipboard effect of a completed `yasinFavorites.paste`:
when a destination directory was resolved and the clipboard is non-empty,
a Cut-based paste clears the clipboard and a Copy-based paste leaves it
intact. -/
def pasteClipboardAfter (clip : ClipboardState) (targetDirResolved : Bool) :
    ClipboardState :=
  if targetDirResolved ∧ clip.paths ≠ [] then
    if clip.operation = some ClipOp.cut then ⟨[], none⟩ else clip
  else clip

/-- Modelled from the spec (§4.1): the three-tier first-non-empty-wins
target resolution (explicit multi-select, else the primary target as a
singleton, else the current host selection); stated for refinement
comparison with the per-command resolutions embedded from the source. -/
def specResolveTargets (explicitMulti : List UIItem) (primaryTarget : Option UIItem)
    (hostSelection : List UIItem) : List UIItem :=
  if explicitMulti ≠ [] then explicitMulti
  else
    match primaryTarget with
    | some r => [r]
    | none => hostSelection

/-! ## Manual reordering (`moveUp` / `moveDown`) -/

/-- The Boolean filter `category ? item.category === category : !item.category`
selecting the same-category partition. -/
def categoryMatches (cat : Option JSStr) (e : FavoriteEntry) : Bool :=
  match cat with
  | some c => decide (e.category = some c)
  | none => decide (e.category = none)

/-- The same-category partition (`items.filter(...)` in `moveUp`/`moveDown`):
the sub-sequence of entries sharing the target's category. -/
def partitionOf (items : List FavoriteEntry) (cat : Option JSStr) :
    List FavoriteEntry :=
  items.filter (categoryMatches cat)

/-- Dispatch of `moveUp` on the target's index within its partition
(`-1`/`0` are no-ops; otherwise swap with the previous partition member at
both entries' indices in the full list). -/
def moveUpGo (items : List FavoriteEntry) (itemPath : JSStr)
    (scat : List FavoriteEntry) : Option Nat → List FavoriteEntry
  | some (k + 1) =>
    match scat.get? k with
    | some prevItem =>
      listSwap items (items.findIdx fun e => decide (e.path = itemPath))
        (items.findIdx fun e => decide (e.path = prevItem.path))
    | none => items
  | _ => items

/-- The `yasinFavorites.moveUp` command (`resource.category` is `cat`). -/
def moveUp (items : List FavoriteEntry) (itemPath : JSStr) (cat : Option JSStr) :
    List FavoriteEntry :=
  moveUpGo items itemPath (partitionOf items cat)
    ((partitionOf items cat).findIdx? fun e => decide (e.path = itemPath))

/-- Dispatch of `moveDown` on the target's index within its partition
(not-found and bottom-of-partition are no-ops; otherwise swap with the next
partition member at both entries' indices in the full list). -/
def moveDownGo (items : List FavoriteEntry) (itemPath : JSStr)
    (scat : List FavoriteEntry) : Option Nat → List FavoriteEntry
  | some k =>
    if k + 1 < scat.length then
      match scat.get? (k + 1) with
      | some nextItem =>
        listSwap items (items.findIdx fun e => decide (e.path = itemPath))
          (items.findIdx fun e => decide (e.path = nextItem.path))
      | none => items
    else items
  | none => items

/-- The `yasinFavorites.moveDown` command. -/
def moveDown (items : List FavoriteEntry) (itemPath : JSStr) (cat : Option JSStr) :
    List FavoriteEntry :=
  moveDownGo items itemPath (partitionOf items cat)
    ((partitionOf items cat).findIdx? fun e => decide (e.path = itemPath))

/-! ## Sort policy (`_sortItems` / `_getFilesystemChildren`) -/

/-- ASCII lowering of a character (`String.prototype.toLowerCase` on the
alphabet the extension handles). -/
def lowerChar (c : Char) : Char :=
  if 'A' ≤ c ∧ c ≤ 'Z' then Char.ofNat (c.toNat + 32) else c

/-- `toLowerCase` over the model strings. -/
def lowerStr (s : JSStr) : JSStr := s.map lowerChar

/-- The comparison key of `_sortItems` for ASC/DESC: the lower-cased final
path component (`path.basename(x.path).toLowerCase()`); `localeCompare` is
modelled as code-point comparison of these keys. -/
def sortKey (e : FavoriteEntry) : JSStr := lowerStr (basename e.path)

/-- `_sortItems(items)`: `MANUAL` (or an empty input) keeps the stored
order; otherwise a stable sort by the mode's comparator.  `mtimeOf` models
the pre-fetched `_getMtime` values. -/
def sortItems (mtimeOf : JSStr → Int) (sortOrder : SortOrder)
    (items : List FavoriteEntry) : List FavoriteEntry :=
  if sortOrder = SortOrder.MANUAL ∨ items = [] then items
  else
    match sortOrder with
    | SortOrder.MODIFIED => items.mergeSort fun a b => decide (mtimeOf b.path ≤ mtimeOf a.path)
    | SortOrder.ASC => items.mergeSort fun a b => decide (sortKey a ≤ sortKey b)
    | SortOrder.DESC => items.mergeSort fun a b => decide (sortKey b ≤ sortKey a)
    | SortOrder.MANUAL => items

/-- The comparator of `_getFilesystemChildren` as a "stays-before" Boolean:
directories unconditionally before files, then the active sort mode on the
entry names (`ASC`/`MANUAL` alphabetical, `DESC` reversed, `MODIFIED` newest
first).  `stats` maps a name to its `(isDir, mtimeMs)` stat info. -/
def fsChildLE (stats : JSStr → Bool × Int) (sortOrder : SortOrder)
    (a b : JSStr) : Bool :=
  if (stats a).1 ∧ ¬ (stats b).1 then true
  else if ¬ (stats a).1 ∧ (stats b).1 then false
  else
    match sortOrder with
    | SortOrder.MODIFIED => decide ((stats b).2 ≤ (stats a).2)
    | SortOrder.DESC => decide (lowerStr b ≤ lowerStr a)
    | _ => decide (lowerStr a ≤ lowerStr b)

/-- `_getFilesystemChildren(dirPath)`: drop dot-entries from the directory
listing, sort with the mode's comparator, and build the child records
`(name, fullPath, isDir)`. -/
def getFilesystemChildren (dirPath : JSStr) (listing : List JSStr)
    (stats : JSStr → Bool × Int) (sortOrder : SortOrder) :
    List (JSStr × JSStr × Bool) :=
  let filtered := listing.filter fun item => ! (['.'].isPrefixOf item)
  let sorted := filtered.mergeSort (fsChildLE stats sortOrder)
  sorted.map fun item => (item, pathJoin dirPath item, (stats item).1)

/-! ## Copy-based paste over a batch (`yasinFavorites.paste`, copy branch) -/

/-- The copy branch of the paste loop.  `copyFails src dest` models
`vscode.workspace.fs.copy(src, dest, { overwrite: false })` rejecting (a
destination-already-exists collision or another filesystem error).  The
loop body has no try/catch, so a rejection propagates out of the `for` loop:
the run returns the copies performed so far and the offending source, and
the remaining clipboard items are never reached.  Sources that no longer
exist are skipped by the `existsSync` guard. -/
def pasteCopyRun (fsEx : JSStr → Bool) (copyFails : JSStr → JSStr → Bool)
    (targetDir : JSStr) : List JSStr → List (JSStr × JSStr) × Option JSStr
  | [] => ([], none)
  | src :: rest =>
    if fsEx src then
      if copyFails src (pasteDest targetDir src) then ([], some src)
      else
        let r := pasteCopyRun fsEx copyFails targetDir rest
        ((src, pasteDest targetDir src) :: r.1, r.2)
    else pasteCopyRun fsEx copyFails targetDir rest

/-! ## Drag-and-drop (`handleDrop`) -/

/-- What `handleDrop` does with one dragged source once the target folder is
resolved. -/
inductive DropOutcome
  | skippedSamePath
  | warnedSubtree
  | attemptMove (dest : JSStr)
deriving DecidableEq

/-- The per-item dispatch of the `handleDrop` loop: compute the destination,
silently `continue` when it coincides with the source, warn and `continue`
when the destination lies inside the source's own subtree, otherwise attempt
the filesystem move (whose own failure is caught per item). -/
def dropOutcome (targetFolder src : JSStr) : DropOutcome :=
  let destPath := pathJoin targetFolder (basename src)
  if src = destPath then DropOutcome.skippedSamePath
  else if (src ++ ['/']).isPrefixOf destPath then DropOutcome.warnedSubtree
  else DropOutcome.attemptMove destPath

/-- The filesystem moves a drop batch attempts (each item is processed
independently; `continue` never leaves the loop). -/
def dropMovesAttempted (targetFolder : JSStr) (sources : List JSStr) :
    List (JSStr × JSStr) :=
  sources.filterMap fun s =>
    match dropOutcome targetFolder s with
    | DropOutcome.attemptMove d => some (s, d)
    | _ => none

/-- The sources a drop batch warns about (move-into-own-subtree). -/
def dropWarnings (targetFolder : JSStr) (sources : List JSStr) : List JSStr :=
  sources.filter fun s => decide (dropOutcome targetFolder s = DropOutcome.warnedSubtree)

/-! ## Invariants and specification-side characterisations -/

/-- The §3 uniqueness invariant: no two entries share `path`. -/
def PathsNodup (items : List FavoriteEntry) : Prop :=
  (items.map FavoriteEntry.path).Nodup

instance (items : List FavoriteEntry) : Decidable (PathsNodup items) := by
  unfold PathsNodup; infer_instance

/-- The claimed effect of a Cut-based paste on the store, written as a
pointwise map: every tracked clipboard path that still exists on disk is
rewritten in place to the destination directory joined with its base name;
every other entry (and every entry's category and position) is untouched. -/
def pasteCutSpec (fsEx : JSStr → Bool) (targetDir : JSStr) (clip : List JSStr)
    (items : List FavoriteEntry) : List FavoriteEntry :=
  items.map fun e =>
    if e.path ∈ clip ∧ fsEx e.path then { e with path := pasteDest targetDir e.path }
    else e


/-! ## Lemmas about the path model -/

theorem splitSegs_no_slash {s : JSStr} (h : '/' ∉ s) : splitSegs s = [s] := by
  induction s with
  | nil => rfl
  | cons c cs ih =>
    have hc : ¬ c = '/' := fun hEq => h (hEq ▸ List.mem_cons_self c cs)
    have hcs : '/' ∉ cs := fun hm => h (List.mem_cons_of_mem c hm)
    simp only [splitSegs, if_neg hc, ih hcs]

theorem splitSegs_slash_cons (rest : JSStr) :
    splitSegs ('/' :: rest) = [] :: splitSegs rest := by
  simp [splitSegs]

theorem splitSegs_ne_nil (s : JSStr) : splitSegs s ≠ [] := by
  induction s with
  | nil => simp [splitSegs]
  | cons c cs ih =>
    by_cases hc : c = '/'
    · simp [splitSegs, hc]
    · simp only [splitSegs, if_neg hc]
      cases hs : splitSegs cs with
      | nil => exact absurd hs ih
      | cons a as => simp

theorem splitSegs_append_slash {s : JSStr} (r : JSStr) (h : '/' ∉ s) :
    splitSegs (s ++ '/' :: r) = s :: splitSegs r := by
  induction s with
  | nil => simpa using splitSegs_slash_cons r
  | cons c cs ih =>
    have hc : ¬ c = '/' := fun hEq => h (hEq ▸ List.mem_cons_self c cs)
    have hcs : '/' ∉ cs := fun hm => h (List.mem_cons_of_mem c hm)
    simp only [List.cons_append, splitSegs, if_neg hc, List.append_eq, ih hcs]

theorem joinSegs_cons_cons (s t : JSStr) (ss : List JSStr) :
    joinSegs (s :: t :: ss) = s ++ '/' :: joinSegs (t :: ss) := by
  simp [joinSegs]

theorem joinSegs_append {A B : List JSStr} (hA : A ≠ []) (hB : B ≠ []) :
    joinSegs (A ++ B) = joinSegs A ++ '/' :: joinSegs B := by
  induction A with
  | nil => exact absurd rfl hA
  | cons a as ih =>
    cases as with
    | nil =>
      cases B with
      | nil => exact absurd rfl hB
      | cons b bs => simp [joinSegs_cons_cons, joinSegs]
    | cons a2 as2 =>
      have h2 : (a2 :: as2 : List JSStr) ≠ [] := by simp
      calc joinSegs ((a :: a2 :: as2) ++ B)
          = a ++ '/' :: joinSegs ((a2 :: as2) ++ B) := by
            simp only [List.cons_append]
            exact joinSegs_cons_cons a _ _
        _ = a ++ '/' :: (joinSegs (a2 :: as2) ++ '/' :: joinSegs B) := by
            rw [ih h2]
        _ = joinSegs (a :: a2 :: as2) ++ '/' :: joinSegs B := by
            rw [joinSegs_cons_cons]; simp

theorem splitSegs_joinSegs {L : List JSStr} (hne : L ≠ [])
    (h : ∀ s ∈ L, '/' ∉ s) : splitSegs (joinSegs L) = L := by
  induction L with
  | nil => exact absurd rfl hne
  | cons s ss ih =>
    cases ss with
    | nil =>
      have := splitSegs_no_slash (h s (by simp))
      simpa [joinSegs] using this
    | cons t ts =>
      have hs : '/' ∉ s := h s (by simp)
      have hrest : ∀ x ∈ t :: ts, '/' ∉ x := fun x hx => h x (List.mem_cons_of_mem s hx)
      rw [joinSegs_cons_cons, splitSegs_append_slash _ hs, ih (by simp) hrest]

theorem normStep_normal (abs : Bool) (acc : List JSStr) {seg : JSStr}
    (h : NormalSeg seg) : normStep abs acc seg = acc ++ [seg] := by
  obtain ⟨h1, _, h3, h4⟩ := h
  simp [normStep, h1, h3, h4]

theorem foldl_normStep_normal (abs : Bool) {segs : List JSStr}
    (h : ∀ s ∈ segs, NormalSeg s) :
    ∀ acc, segs.foldl (normStep abs) acc = acc ++ segs := by
  induction segs with
  | nil => simp
  | cons s ss ih =>
    intro acc
    have hs : NormalSeg s := h s (by simp)
    have hss : ∀ x ∈ ss, NormalSeg x := fun x hx => h x (List.mem_cons_of_mem s hx)
    rw [List.foldl_cons, normStep_normal abs acc hs, ih hss]
    simp

theorem normSegs_normal (abs : Bool) {segs : List JSStr}
    (h : ∀ s ∈ segs, NormalSeg s) : normSegs abs segs = segs := by
  simpa using foldl_normStep_normal abs h []

theorem normSegs_nil_cons (abs : Bool) (segs : List JSStr) :
    normSegs abs ([] :: segs) = normSegs abs segs := by
  simp [normSegs, normStep]

theorem dropCommon_append (xs ys : List JSStr) :
    dropCommon xs (xs ++ ys) = ([], ys) := by
  induction xs with
  | nil =>
    cases ys with
    | nil => rfl
    | cons y ys' => rfl
  | cons x xs' ih => simpa [dropCommon] using ih

theorem joinSegs_ne_nil {L : List JSStr} (hne : L ≠ [])
    (h : ∀ s ∈ L, s ≠ []) : joinSegs L ≠ [] := by
  cases L with
  | nil => exact absurd rfl hne
  | cons s ss =>
    cases ss with
    | nil =>
      simpa [joinSegs] using h s (by simp)
    | cons t ts =>
      rw [joinSegs_cons_cons]
      have : s ≠ [] := h s (by simp)
      cases s with
      | nil => exact absurd rfl this
      | cons c cs => simp

theorem isAbsolute_joinSegs {L : List JSStr} (hne : L ≠ [])
    (h : ∀ s ∈ L, NormalSeg s) : isAbsolute (joinSegs L) = false := by
  cases L with
  | nil => exact absurd rfl hne
  | cons s ss =>
    obtain ⟨h1, h2, _, _⟩ := h s (by simp)
    have hhead : ∃ c cs, s = c :: cs ∧ c ≠ '/' := by
      cases s with
      | nil => exact absurd rfl h1
      | cons c cs =>
        exact ⟨c, cs, rfl, fun hc => h2 (hc ▸ List.mem_cons_self c cs)⟩
    obtain ⟨c, cs, hs, hc⟩ := hhead
    cases ss with
    | nil => simp [joinSegs, hs, isAbsolute, hc]
    | cons t ts => rw [joinSegs_cons_cons]; simp [hs, isAbsolute, hc]

theorem isPrefixOf_append_self (a t : JSStr) : a.isPrefixOf (a ++ t) = true := by
  induction a with
  | nil => simp [List.isPrefixOf]
  | cons c cs ih => simp [List.isPrefixOf, ih]
theorem isPrefixOf_iff_exists_append (a b : JSStr) :
    a.isPrefixOf b = true ↔ ∃ t, b = a ++ t := by
  induction a generalizing b with
  | nil => simp [List.isPrefixOf]
  | cons c cs ih =>
    cases b with
    | nil => simp [List.isPrefixOf]
    | cons d ds =>
      simp only [List.isPrefixOf, Bool.and_eq_true, beq_iff_eq, ih, List.cons_append,
        List.cons.injEq]
      constructor
      · rintro ⟨hcd, t, ht⟩; exact ⟨t, hcd.symm, ht⟩
      · rintro ⟨t, hcd, ht⟩; exact ⟨hcd.symm, t, ht⟩

/-! ## Helper lemmas about the generic list operations -/

theorem updateFirst_of_not_mem {α : Type} (p : α → Bool) (f : α → α) {l : List α}
    (h : ∀ a ∈ l, p a = false) : updateFirst p f l = l := by
  induction l with
  | nil => rfl
  | cons a rest ih =>
    have ha : p a = false := h a (by simp)
    simp only [updateFirst, ha, Bool.false_eq_true, if_false, List.cons.injEq, true_and]
    exact ih fun x hx => h x (List.mem_cons_of_mem a hx)

theorem updateFirst_eq_map {α : Type} (p : α → Bool) (f : α → α) {l : List α}
    (hc : l.countP p ≤ 1) :
    updateFirst p f l = l.map fun a => if p a then f a else a := by
  induction l with
  | nil => rfl
  | cons a rest ih =>
    by_cases ha : p a = true
    · have hrest : rest.countP p = 0 := by
        have := List.countP_cons p a rest
        rw [if_pos ha] at this
        omega
      have hnone : ∀ x ∈ rest, p x = false :=
        fun x hx => by
          have := List.countP_eq_zero.mp hrest x hx
          simpa using this
      have hmap : rest.map (fun a => if p a then f a else a) = rest := by
        have : rest.map (fun a => if p a then f a else a) = rest.map id :=
          List.map_congr_left fun x hx => by simp [hnone x hx]
        simpa using this
      simp [updateFirst, ha, hmap]
    · have ha' : p a = false := by simpa using ha
      have hc' : rest.countP p ≤ 1 := by
        have := List.countP_cons p a rest
        rw [if_neg (by simp [ha'])] at this
        omega
      simp [updateFirst, ha', ih hc']

theorem length_listSwap {α : Type} (l : List α) (i j : Nat) :
    (listSwap l i j).length = l.length := by
  unfold listSwap
  cases hi : l.get? i <;> cases hj : l.get? j <;> simp

theorem listSwap_get?_fst {α : Type} (l : List α) {i j : Nat}
    (hi : i < l.length) (hj : j < l.length) :
    (listSwap l i j).get? j = l.get? i := by
  have hi' : l.get? i = some l[i] := by
    rw [List.get?_eq_getElem?, List.getElem?_eq_getElem hi]
  have hj' : l.get? j = some l[j] := by
    rw [List.get?_eq_getElem?, List.getElem?_eq_getElem hj]
  unfold listSwap
  rw [hi', hj']
  simp [List.get?_eq_getElem?, List.getElem?_set, List.length_set, hj]

theorem listSwap_get?_snd {α : Type} (l : List α) {i j : Nat}
    (hi : i < l.length) (hj : j < l.length) :
    (listSwap l i j).get? i = l.get? j := by
  have hi' : l.get? i = some l[i] := by
    rw [List.get?_eq_getElem?, List.getElem?_eq_getElem hi]
  have hj' : l.get? j = some l[j] := by
    rw [List.get?_eq_getElem?, List.getElem?_eq_getElem hj]
  unfold listSwap
  rw [hi', hj']
  by_cases hij : j = i
  · subst hij
    simp [List.get?_eq_getElem?, List.getElem?_set, List.length_set, hj]
  · simp [List.get?_eq_getElem?, List.getElem?_set, List.length_set, hij, hi]

theorem listSwap_get?_other {α : Type} (l : List α) {i j m : Nat}
    (hmi : m ≠ i) (hmj : m ≠ j) :
    (listSwap l i j).get? m = l.get? m := by
  unfold listSwap
  cases hi : l.get? i <;> cases hj : l.get? j <;>
    simp [List.get?_eq_getElem?, List.getElem?_set, Ne.symm hmi, Ne.symm hmj] at *

theorem findIdx_of_pathsNodup {items : List FavoriteEntry} (hN : PathsNodup items)
    {i : Nat} (hi : i < items.length) {q : JSStr} (hq : items[i].path = q) :
    items.findIdx (fun e => decide (e.path = q)) = i := by
  rw [List.findIdx_eq hi]
  refine ⟨by simp [hq], fun j hji => ?_⟩
  have hpw : List.Pairwise (fun a b : FavoriteEntry => a.path ≠ b.path) items :=
    List.pairwise_map.mp hN
  have hj : j < items.length := lt_trans hji hi
  have := (List.pairwise_iff_getElem.mp hpw) j i hj hi hji
  simp only [decide_eq_false_iff_not]
  exact fun hcontra => this (by rw [hcontra, hq])

/-! ## C3: clipboard lifecycle -/

/-- **C3.**  `cut`/`copy` replace the whole prior clipboard state with the
resolved ordered path list and operation tag (so `cut([X,Y])` then
`copy([Z])` leaves exactly `{paths: [Z], operation: Copy}`); after a
completed Cut-based paste the clipboard is cleared, and a Copy-based paste
leaves it intact. -/
theorem c3_clipboard_lifecycle :
    (∀ (clip : ClipboardState) (resource : Option UIItem) (selection : List UIItem),
        resolvePrimaryOrSelection resource selection ≠ [] →
        cutCmd clip resource selection =
          ⟨(resolvePrimaryOrSelection resource selection).filterMap id, some ClipOp.cut⟩)
    ∧ (∀ (clip : ClipboardState) (resource : Option UIItem) (selection : List UIItem),
        resolvePrimaryOrSelection resource selection ≠ [] →
        copyCmd clip resource selection =
          ⟨(resolvePrimaryOrSelection resource selection).filterMap id, some ClipOp.copy⟩)
    ∧ (∀ (clip : ClipboardState) (x y z : JSStr),
        copyCmd (cutCmd clip none [some x, some y]) none [some z] =
          ⟨[z], some ClipOp.copy⟩)
    ∧ (∀ clip : ClipboardState, clip.operation = some ClipOp.cut → clip.paths ≠ [] →
        pasteClipboardAfter clip true = ⟨[], none⟩)
    ∧ (∀ (clip : ClipboardState) (resolved : Bool), clip.operation = some ClipOp.copy →
        pasteClipboardAfter clip resolved = clip) := by
  refine ⟨?_, ?_, ?_, ?_, ?_⟩
  · intro clip resource selection h
    have : 0 < (resolvePrimaryOrSelection resource selection).length :=
      List.length_pos.mpr h
    simp [cutCmd, this]
  · intro clip resource selection h
    have : 0 < (resolvePrimaryOrSelection resource selection).length :=
      List.length_pos.mpr h
    simp [copyCmd, this]
  · intro clip x y z
    simp [cutCmd, copyCmd, resolvePrimaryOrSelection]
  · intro clip hop hpaths
    simp [pasteClipboardAfter, hop, hpaths]
  · intro clip resolved hop
    cases resolved <;> simp [pasteClipboardAfter, hop]

/-- Witness for C3 at concrete inputs. -/
theorem c3_witness :
    cutCmd ⟨[js "/old"], some ClipOp.copy⟩ (some (some (js "/w/x"))) [] =
        ⟨[js "/w/x"], some ClipOp.cut⟩
    ∧ pasteClipboardAfter ⟨[js "/w/x"], some ClipOp.cut⟩ true = ⟨[], none⟩
    ∧ pasteClipboardAfter ⟨[js "/w/x"], some ClipOp.copy⟩ true =
        ⟨[js "/w/x"], some ClipOp.copy⟩ :=
  ⟨c3_clipboard_lifecycle.1 _ _ _ (by decide),
   c3_clipboard_lifecycle.2.2.2.1 _ (by decide) (by decide),
   c3_clipboard_lifecycle.2.2.2.2 _ _ (by decide)⟩

/-! ## C4: target resolution -/

/-- **C4, counterexample.**  The claim says every path-targeting command
(including `cut`) resolves its targets with the three-tier
first-non-empty-wins rule; but the `cut`/`copy` handlers ignore the explicit
multi-select argument the host passes, so with a non-empty multi-select and
a primary target they resolve to the primary target alone instead of the
multi-select sequence. -/
theorem c4_counterexample :
    cutCmdItemsFull (some (some (js "/w/p")))
        (some [some (js "/w/a"), some (js "/w/b")]) []
      ≠ specResolveTargets [some (js "/w/a"), some (js "/w/b")]
          (some (some (js "/w/p"))) [] := by decide

/-- **C4, amended.**  `copyPath` (and `copyRelativePath`) resolve targets
first-non-empty-wins across explicit multi-select, the primary target and
the host selection; `cut`/`copy` ignore the explicit multi-select argument
and behave as the three-tier rule with an always-empty first tier.  In
particular, with `primaryTarget = P`, `explicitMultiSelect = []` and
`currentHostSelection = [Q, R]`, each of them resolves to `[P]`. -/
theorem c4_target_resolution :
    (∀ (resource : Option UIItem) (multi : List UIItem) (selection : List UIItem),
        copyPathItems resource (some multi) selection =
          specResolveTargets multi resource selection)
    ∧ (∀ (resource : Option UIItem) (selection : List UIItem),
        copyPathItems resource none selection =
          specResolveTargets [] resource selection)
    ∧ (∀ (resource : Option UIItem) (multi : Option (List UIItem))
          (selection : List UIItem),
        cutCmdItemsFull resource multi selection =
          specResolveTargets [] resource selection)
    ∧ (∀ p q r : JSStr,
        copyPathPaths (some (some p)) (some []) [some q, some r] = [p]
        ∧ cutCmdItemsFull (some (some p)) (some []) [some q, some r] = [some p]) := by
  refine ⟨?_, ?_, ?_, ?_⟩
  · intro resource multi selection
    cases multi with
    | nil => simp [copyPathItems, specResolveTargets, resolvePrimaryOrSelection]
    | cons a as => simp [copyPathItems, specResolveTargets]
  · intro resource selection
    simp [copyPathItems, specResolveTargets, resolvePrimaryOrSelection]
  · intro resource multi selection
    simp [cutCmdItemsFull, specResolveTargets, resolvePrimaryOrSelection]
  · intro p q r
    exact ⟨by simp [copyPathPaths, copyPathItems, resolvePrimaryOrSelection], rfl⟩

/-! ## C10: dot-entries are excluded from filesystem children -/

/-- **C10.**  When listing the filesystem children of a favorited folder,
every directory entry whose name begins with `.` is excluded from the
returned children, under every sort mode. -/
theorem c10_dot_entries_excluded (dirPath : JSStr) (listing : List JSStr)
    (stats : JSStr → Bool × Int) (sortOrder : SortOrder) (name : JSStr)
    (hdot : ['.'].isPrefixOf name = true) :
    ∀ fullPath isDir,
      (name, fullPath, isDir) ∉ getFilesystemChildren dirPath listing stats sortOrder := by
  intro fullPath isDir hmem
  unfold getFilesystemChildren at hmem
  simp only [List.mem_map] at hmem
  obtain ⟨item, hitem, heq⟩ := hmem
  have hname : item = name := congrArg Prod.fst heq
  subst hname
  have hfil :
      item ∈ listing.filter fun it => ! (['.'].isPrefixOf it) :=
    ((listing.filter fun it => ! (['.'].isPrefixOf it)).mergeSort_perm
      (fsChildLE stats sortOrder)).mem_iff.mp hitem
  have := (List.mem_filter.mp hfil).2
  rw [hdot] at this
  simp at this

/-- Witness for C10 at a concrete listing. -/
theorem c10_witness :
    (['.'].isPrefixOf (js ".git") = true)
    ∧ ∀ fullPath isDir,
        (js ".git", fullPath, isDir) ∉
          getFilesystemChildren (js "/w") [js ".git", js "src"]
            (fun _ => (false, 0)) SortOrder.ASC :=
  ⟨by decide, c10_dot_entries_excluded _ _ _ _ _ (by decide)⟩

/-! ## C8: drag-and-drop guards -/

/-- Membership characterisation of the moves a drop batch attempts. -/
theorem mem_dropMovesAttempted {targetFolder : JSStr} {sources : List JSStr}
    {s d : JSStr} :
    (s, d) ∈ dropMovesAttempted targetFolder sources ↔
      s ∈ sources ∧ dropOutcome targetFolder s = DropOutcome.attemptMove d := by
  unfold dropMovesAttempted
  rw [List.mem_filterMap]
  constructor
  · rintro ⟨a, ha, hout⟩
    cases hcase : dropOutcome targetFolder a with
    | skippedSamePath => rw [hcase] at hout; simp at hout
    | warnedSubtree => rw [hcase] at hout; simp at hout
    | attemptMove d' =>
      rw [hcase] at hout
      simp only [Option.some.injEq, Prod.mk.injEq] at hout
      obtain ⟨ha', hd'⟩ := hout
      subst ha'
      exact ⟨ha, by rw [hcase, hd']⟩
  · rintro ⟨hs, hout⟩
    exact ⟨s, hs, by rw [hout]⟩

/-- **C8.**  For every drag-and-drop move: a drop whose computed destination
coincides with the source is rejected (no filesystem move is attempted for
it); a drop whose destination begins with the source followed by the path
separator is rejected with a warning; and every other item of the same
batch still has its move attempted. -/
theorem c8_drop_guards (targetFolder : JSStr) (sources : List JSStr) (s : JSStr)
    (hs : s ∈ sources) :
    (pathJoin targetFolder (basename s) = s →
        ∀ d, (s, d) ∉ dropMovesAttempted targetFolder sources)
    ∧ ((s ++ ['/']).isPrefixOf (pathJoin targetFolder (basename s)) = true →
        s ∈ dropWarnings targetFolder sources
        ∧ ∀ d, (s, d) ∉ dropMovesAttempted targetFolder sources)
    ∧ (pathJoin targetFolder (basename s) ≠ s →
        (s ++ ['/']).isPrefixOf (pathJoin targetFolder (basename s)) = false →
        (s, pathJoin targetFolder (basename s)) ∈ dropMovesAttempted targetFolder sources) := by
  refine ⟨?_, ?_, ?_⟩
  · intro hsame d hmem
    have hout := (mem_dropMovesAttempted.mp hmem).2
    unfold dropOutcome at hout
    rw [if_pos hsame.symm] at hout
    exact DropOutcome.noConfusion hout
  · intro hsub
    have hne : s ≠ pathJoin targetFolder (basename s) := by
      obtain ⟨t, ht⟩ := (isPrefixOf_iff_exists_append _ _).mp hsub
      intro hcontra
      have hlen : (pathJoin targetFolder (basename s)).length =
          s.length + 1 + t.length := by
        rw [ht]; simp [List.length_append]; omega
      rw [← hcontra] at hlen
      omega
    have hout : dropOutcome targetFolder s = DropOutcome.warnedSubtree := by
      unfold dropOutcome
      rw [if_neg (fun hEq => hne hEq), if_pos hsub]
    refine ⟨List.mem_filter.mpr ⟨hs, by simp [hout]⟩, fun d hmem => ?_⟩
    have := (mem_dropMovesAttempted.mp hmem).2
    rw [hout] at this
    exact DropOutcome.noConfusion this
  · intro hne hnsub
    refine mem_dropMovesAttempted.mpr ⟨hs, ?_⟩
    unfold dropOutcome
    rw [if_neg (fun hEq => hne hEq.symm), if_neg (by rw [hnsub]; simp)]

/-- Witness for C8: dropping `/w/sub` onto itself is rejected with a
warning (its computed destination `/w/sub/sub` lies in its own subtree),
dropping `/w/x.txt` into its own directory is silently skipped (destination
coincides with the source), and an unrelated batch member still proceeds. -/
theorem c8_witness :
    ((js "/w/sub" ++ ['/']).isPrefixOf
        (pathJoin (js "/w/sub") (basename (js "/w/sub"))) = true)
    ∧ js "/w/sub" ∈ dropWarnings (js "/w/sub") [js "/w/sub", js "/q/a.txt"]
    ∧ (∀ d, (js "/w/sub", d) ∉ dropMovesAttempted (js "/w/sub") [js "/w/sub", js "/q/a.txt"])
    ∧ (js "/q/a.txt", pathJoin (js "/w/sub") (basename (js "/q/a.txt")))
        ∈ dropMovesAttempted (js "/w/sub") [js "/w/sub", js "/q/a.txt"]
    ∧ (pathJoin (js "/w") (basename (js "/w/x.txt")) = js "/w/x.txt")
    ∧ (∀ d, (js "/w/x.txt", d) ∉ dropMovesAttempted (js "/w") [js "/w/x.txt"]) := by
  refine ⟨by decide, ?_, ?_, ?_, by decide, ?_⟩
  · exact ((c8_drop_guards (js "/w/sub") [js "/w/sub", js "/q/a.txt"] (js "/w/sub")
      (by decide)).2.1 (by decide)).1
  · exact ((c8_drop_guards (js "/w/sub") [js "/w/sub", js "/q/a.txt"] (js "/w/sub")
      (by decide)).2.1 (by decide)).2
  · exact (c8_drop_guards (js "/w/sub") [js "/w/sub", js "/q/a.txt"] (js "/q/a.txt")
      (by decide)).2.2 (by decide) (by decide)
  · exact (c8_drop_guards (js "/w") [js "/w/x.txt"] (js "/w/x.txt")
      (by decide)).1 (by decide)

/-! ## C2: the path-uniqueness invariant -/

theorem map_path_updateFirst (p : FavoriteEntry → Bool) (f : FavoriteEntry → FavoriteEntry)
    (hf : ∀ e, (f e).path = e.path) (items : List FavoriteEntry) :
    (updateFirst p f items).map FavoriteEntry.path = items.map FavoriteEntry.path := by
  induction items with
  | nil => rfl
  | cons a rest ih =>
    by_cases ha : p a = true
    · simp [updateFirst, ha, hf a]
    · simp only [Bool.not_eq_true] at ha
      simp [updateFirst, ha, ih]

theorem mem_map_path_updateFavoritePath {items : List FavoriteEntry} {src dst x : JSStr}
    (hx : x ∈ (updateFavoritePath items src dst).map FavoriteEntry.path) :
    x ∈ items.map FavoriteEntry.path ∨ x = dst := by
  induction items with
  | nil => simp [updateFavoritePath, updateFirst] at hx
  | cons a rest ih =>
    by_cases ha : a.path = src
    · unfold updateFavoritePath updateFirst at hx
      rw [if_pos (by simp [ha])] at hx
      simp only [List.map_cons, List.mem_cons] at hx
      rcases hx with hx | hx
      · exact Or.inr hx
      · exact Or.inl (List.mem_cons_of_mem _ hx)
    · unfold updateFavoritePath updateFirst at hx
      rw [if_neg (by simp [ha])] at hx
      simp only [List.map_cons, List.mem_cons] at hx
      rcases hx with hx | hx
      · exact Or.inl (by simp [hx])
      · rcases ih hx with hmem | hEq
        · exact Or.inl (List.mem_cons_of_mem _ hmem)
        · exact Or.inr hEq

theorem pathsNodup_updateFavoritePath {items : List FavoriteEntry} {src dst : JSStr}
    (hN : PathsNodup items) (h : ∀ e ∈ items, e.path ≠ src → e.path ≠ dst) :
    PathsNodup (updateFavoritePath items src dst) := by
  induction items with
  | nil => exact hN
  | cons a rest ih =>
    unfold PathsNodup at hN
    simp only [List.map_cons, List.nodup_cons] at hN
    obtain ⟨hnotmem, hrest⟩ := hN
    by_cases ha : a.path = src
    · unfold updateFavoritePath updateFirst
      rw [if_pos (by simp [ha])]
      unfold PathsNodup
      simp only [List.map_cons, List.nodup_cons]
      refine ⟨fun hcontra => ?_, hrest⟩
      obtain ⟨e, he, hedst⟩ := List.mem_map.mp hcontra
      have hne : e.path ≠ src := by
        intro hEq
        exact hnotmem (by rw [← ha] at hEq; exact List.mem_map.mpr ⟨e, he, hEq⟩)
      exact h e (List.mem_cons_of_mem a he) hne hedst
    · unfold updateFavoritePath updateFirst
      rw [if_neg (by simp [ha])]
      unfold PathsNodup
      simp only [List.map_cons, List.nodup_cons]
      have hadst : a.path ≠ dst := h a (by simp) ha
      refine ⟨fun hcontra => ?_,
        ih hrest fun e he hne => h e (List.mem_cons_of_mem a he) hne⟩
      rcases mem_map_path_updateFavoritePath hcontra with hmem | hEq
      · exact hnotmem hmem
      · exact hadst hEq

/-- The concrete store of the C2 counterexample: two favorites `/w/a` and
`/w/b` in the same directory. -/
def itemsC2 : List FavoriteEntry :=
  [⟨js "/w/a", EntryType.file, none⟩, ⟨js "/w/b", EntryType.file, none⟩]

/-- **C2, counterexample.**  The store `[{path:/w/a}, {path:/w/b}]`
satisfies the uniqueness invariant, but renaming `/w/a` to `b` (the
`yasinFavorites.rename` command; `fs.renameSync` overwrites `/w/b` on POSIX
and the store rewrite performs no duplicate check) leaves two entries with
path `/w/b` — so not every store mutation preserves the invariant. -/
theorem c2_counterexample :
    PathsNodup itemsC2 ∧ ¬ PathsNodup (renameCmdStore itemsC2 (js "/w/a") (js "b")) := by
  constructor
  · decide
  · decide

/-- **C2, amended.**  `addFavorite`, `removeFavorite`, `moveToCategory`,
`moveToRoot` and `renameCategory` preserve the uniqueness invariant
unconditionally; the `rename` command and the per-item path rewrite of a
Cut-based paste preserve it provided the rewritten path is not already held
by a different entry. -/
theorem c2_unique_paths (items : List FavoriteEntry) (h : PathsNodup items) :
    (∀ p t, PathsNodup (addFavorite items p t).1)
    ∧ (∀ p, PathsNodup (removeFavorite items p))
    ∧ (∀ p c, PathsNodup (moveToCategory items p c))
    ∧ (∀ p, PathsNodup (moveToRoot items p))
    ∧ (∀ o n, PathsNodup (renameCategory items o n))
    ∧ (∀ p nn, (∀ e ∈ items, e.path ≠ p → e.path ≠ pathJoin (dirname p) nn) →
        PathsNodup (renameCmdStore items p nn))
    ∧ (∀ targetDir src,
        (∀ e ∈ items, e.path ≠ src → e.path ≠ pasteDest targetDir src) →
        PathsNodup (updateFavoritePath items src (pasteDest targetDir src))) := by
  refine ⟨?_, ?_, ?_, ?_, ?_, ?_, ?_⟩
  · intro p t
    unfold addFavorite
    by_cases hany : items.any fun item => decide (item.path = p)
    · simpa [hany] using h
    · rw [if_neg hany]
      unfold PathsNodup
      simp only [List.map_append, List.map_cons, List.map_nil]
      rw [List.nodup_append]
      refine ⟨h, by simp, ?_⟩
      intro x hx hx'
      simp only [List.mem_singleton] at hx'
      subst hx'
      obtain ⟨e, he, hep⟩ := List.mem_map.mp hx
      rw [List.any_eq_true] at hany
      exact hany ⟨e, he, by simp [hep]⟩
  · intro p
    unfold removeFavorite
    cases hidx : items.findIdx? fun item => decide (item.path = p) with
    | none => exact h
    | some i =>
      exact List.Nodup.sublist (List.Sublist.map _ (List.eraseIdx_sublist items i)) h
  · intro p c
    unfold PathsNodup moveToCategory
    rw [map_path_updateFirst (fun item => decide (item.path = p))
      (fun item => { item with category := some c }) (fun e => rfl) items]
    exact h
  · intro p
    unfold PathsNodup moveToRoot
    rw [map_path_updateFirst (fun item => decide (item.path = p))
      (fun item => { item with category := none }) (fun e => rfl) items]
    exact h
  · intro o n
    unfold PathsNodup renameCategory
    rw [List.map_map]
    have : items.map (FavoriteEntry.path ∘ fun item =>
        if item.category = some o then { item with category := some n } else item) =
        items.map FavoriteEntry.path := by
      apply List.map_congr_left
      intro e _
      by_cases he : e.category = some o <;> simp [he]
    rw [this]
    exact h
  · intro p nn hfree
    exact pathsNodup_updateFavoritePath h hfree
  · intro targetDir src hfree
    exact pathsNodup_updateFavoritePath h hfree

/-- Witness for C2 at a concrete store. -/
theorem c2_witness :
    PathsNodup itemsC2
    ∧ PathsNodup (addFavorite itemsC2 (js "/w/c") EntryType.file).1
    ∧ PathsNodup (renameCmdStore itemsC2 (js "/w/a") (js "c"))
    ∧ PathsNodup (updateFavoritePath itemsC2 (js "/w/a") (pasteDest (js "/d") (js "/w/a"))) :=
  ⟨by decide,
   (c2_unique_paths itemsC2 (by decide)).1 _ _,
   (c2_unique_paths itemsC2 (by decide)).2.2.2.2.2.1 _ _ (by decide),
   (c2_unique_paths itemsC2 (by decide)).2.2.2.2.2.2 _ _ (by decide)⟩

/-! ## C1: Cut-based paste rewrites tracked entries in place -/

theorem pasteCut_step_eq_map (fsEx : JSStr → Bool) (targetDir : JSStr)
    {items : List FavoriteEntry} {src : JSStr}
    (hc : items.countP (fun e => decide (e.path = src)) ≤ 1) :
    (if fsEx src then updateFavoritePath items src (pasteDest targetDir src) else items) =
      items.map fun e =>
        if e.path = src ∧ fsEx src then { e with path := pasteDest targetDir src } else e := by
  by_cases hfs : fsEx src = true
  · rw [if_pos hfs]
    unfold updateFavoritePath
    rw [updateFirst_eq_map _ _ hc]
    apply List.map_congr_left
    intro e _
    by_cases he : e.path = src
    · rw [if_pos (by simp [he]), if_pos (show e.path = src ∧ fsEx src = true from ⟨he, hfs⟩)]
    · rw [if_neg (by simp [he]), if_neg (by simp [he])]
  · rw [if_neg hfs]
    have hmap : (items.map fun e =>
        if e.path = src ∧ fsEx src then { e with path := pasteDest targetDir src } else e) =
        items.map id :=
      List.map_congr_left fun e _ => by rw [if_neg (by simp [hfs]), id]
    rw [hmap, List.map_id]

theorem pasteCut_eq_spec (fsEx : JSStr → Bool) (targetDir : JSStr)
    (clip : List JSStr) (items : List FavoriteEntry)
    (hclip : clip.Nodup)
    (hcount : ∀ q ∈ clip, items.countP (fun e => decide (e.path = q)) ≤ 1)
    (hdest : ∀ p ∈ clip, ∀ q ∈ clip, pasteDest targetDir p ≠ q) :
    pasteCut fsEx targetDir items clip = pasteCutSpec fsEx targetDir clip items := by
  induction clip generalizing items with
  | nil =>
    unfold pasteCut pasteCutSpec
    simp
  | cons src rest ih =>
    have hsrc_mem : src ∈ src :: rest := by simp
    have hc1 : items.countP (fun e => decide (e.path = src)) ≤ 1 := hcount src hsrc_mem
    have hsrc_not_rest : src ∉ rest := (List.nodup_cons.mp hclip).1
    have hstep := pasteCut_step_eq_map fsEx targetDir hc1
    have hfold : pasteCut fsEx targetDir items (src :: rest) =
        pasteCut fsEx targetDir
          (items.map fun e =>
            if e.path = src ∧ fsEx src then { e with path := pasteDest targetDir src } else e)
          rest := by
      unfold pasteCut
      rw [List.foldl_cons, ← hstep]
    rw [hfold]
    have hcount' : ∀ q ∈ rest,
        (items.map fun e =>
            if e.path = src ∧ fsEx src then { e with path := pasteDest targetDir src }
            else e).countP (fun e => decide (e.path = q)) ≤ 1 := by
      intro q hq
      rw [List.countP_map]
      have hcongr : items.countP
          ((fun e => decide (e.path = q)) ∘ fun e =>
            if e.path = src ∧ fsEx src then { e with path := pasteDest targetDir src } else e) =
          items.countP (fun e => decide (e.path = q)) := by
        apply List.countP_congr
        intro e _
        by_cases hcond : e.path = src ∧ fsEx src = true
        · have h1 : pasteDest targetDir src ≠ q :=
            hdest src hsrc_mem q (List.mem_cons_of_mem src hq)
        
          have h2 : ¬ src = q := fun hcontra => hsrc_not_rest (hcontra ▸ hq)
          simp [Function.comp, hcond, h1, h2]
        · simp [Function.comp, hcond]
      rw [hcongr]
      exact hcount q (List.mem_cons_of_mem src hq)
    have hrest := ih _ (List.nodup_cons.mp hclip).2 hcount'
      (fun p hp q hq =>
        hdest p (List.mem_cons_of_mem src hp) q (List.mem_cons_of_mem src hq))
    rw [hrest]
    unfold pasteCutSpec
    rw [List.map_map]
    apply List.map_congr_left
    intro e _
    simp only [Function.comp]
    by_cases h1 : e.path = src ∧ fsEx src = true
    · rw [if_pos h1]
      have hu : ¬ (({ e with path := pasteDest targetDir src } : FavoriteEntry).path ∈ rest ∧
          fsEx ({ e with path := pasteDest targetDir src } : FavoriteEntry).path = true) := by
        intro hcond
        exact hdest src hsrc_mem _ (List.mem_cons_of_mem src hcond.1) rfl
      rw [if_neg hu]
      rw [if_pos (show e.path ∈ src :: rest ∧ fsEx e.path = true from
        ⟨by rw [h1.1]; exact hsrc_mem, by rw [h1.1]; exact h1.2⟩)]
      rw [h1.1]
    · rw [if_neg h1]
      by_cases h2 : e.path ∈ rest ∧ fsEx e.path = true
      · rw [if_pos h2, if_pos (show e.path ∈ src :: rest ∧ fsEx e.path = true from
          ⟨List.mem_cons_of_mem src h2.1, h2.2⟩)]
      · have h3 : ¬ (e.path ∈ src :: rest ∧ fsEx e.path = true) := by
          rintro ⟨hm, hf⟩
          rcases List.mem_cons.mp hm with hEq | hm2
          · exact h1 ⟨hEq, by rw [← hEq]; exact hf⟩
          · exact h2 ⟨hm2, hf⟩
        rw [if_neg h2, if_neg h3]

/-- **C1.**  A Cut-based paste rewrites, for each clipboard path that still
exists on disk and is tracked by an entry, that entry's `path` field in
place to the destination directory joined with the source's base name; the
entry's category, its position, and all other entries are unchanged, and no
entry is removed or re-added (the store is a pointwise map of the original,
of the same length, with all categories intact).  Hypotheses: the clipboard
paths are distinct, each is tracked by at most one entry (the store
uniqueness invariant), and no computed destination collides with another
clipboard path. -/
theorem c1_cut_paste_rewrites_in_place (fsEx : JSStr → Bool) (targetDir : JSStr)
    (items : List FavoriteEntry) (clip : List JSStr)
    (hclip : clip.Nodup)
    (hcount : ∀ q ∈ clip, items.countP (fun e => decide (e.path = q)) ≤ 1)
    (hdest : ∀ p ∈ clip, ∀ q ∈ clip, pasteDest targetDir p ≠ q) :
    pasteCut fsEx targetDir items clip = pasteCutSpec fsEx targetDir clip items
    ∧ (pasteCut fsEx targetDir items clip).length = items.length
    ∧ (pasteCut fsEx targetDir items clip).map FavoriteEntry.category =
        items.map FavoriteEntry.category := by
  have h := pasteCut_eq_spec fsEx targetDir clip items hclip hcount hdest
  refine ⟨h, ?_, ?_⟩
  · rw [h]; unfold pasteCutSpec; simp
  · rw [h]
    unfold pasteCutSpec
    rw [List.map_map]
    apply List.map_congr_left
    intro e _
    by_cases hc : e.path ∈ clip ∧ fsEx e.path = true
    · simp [Function.comp, hc]
    · simp [Function.comp, hc]

/-- Witness for C1: the spec's own scenario — Cut of `/root/dir1` (tracked,
categorised, first in the store) pasted into `/root/dir2` rewrites the
tracked favorite's path to `/root/dir2/dir1` in place, leaving its
category, its position and the other entry unchanged. -/
theorem c1_witness :
    pasteCut (fun _ => true) (js "/root/dir2")
        [⟨js "/root/dir1", EntryType.folder, some (js "cat")⟩,
         ⟨js "/x/y", EntryType.file, none⟩]
        [js "/root/dir1"] =
      pasteCutSpec (fun _ => true) (js "/root/dir2") [js "/root/dir1"]
        [⟨js "/root/dir1", EntryType.folder, some (js "cat")⟩,
         ⟨js "/x/y", EntryType.file, none⟩]
    ∧ pasteCut (fun _ => true) (js "/root/dir2")
        [⟨js "/root/dir1", EntryType.folder, some (js "cat")⟩,
         ⟨js "/x/y", EntryType.file, none⟩]
        [js "/root/dir1"] =
      [⟨js "/root/dir2/dir1", EntryType.folder, some (js "cat")⟩,
       ⟨js "/x/y", EntryType.file, none⟩] :=
  ⟨(c1_cut_paste_rewrites_in_place _ _ _ _ (by decide) (by decide) (by decide)).1,
   by decide⟩

/-! ## C7: error handling of a Copy-based paste batch -/

/-- **C7, counterexample.**  The copy branch of the paste loop has no
per-item try/catch: with clipboard `[/w/a, /w/b]` (both on disk) and a
destination-already-exists collision on `/w/a`, the rejection propagates
out of the loop — nothing is copied and `/w/b`, although present and
collision-free, is never pasted.  This contradicts the claim that a
collision on one item does not abort the paste of the remaining items. -/
theorem c7_counterexample :
    pasteCopyRun (fun _ => true) (fun s _ => decide (s = js "/w/a")) (js "/dst")
        [js "/w/a", js "/w/b"] = ([], some (js "/w/a"))
    ∧ (js "/w/b", pasteDest (js "/dst") (js "/w/b")) ∉
        (pasteCopyRun (fun _ => true) (fun s _ => decide (s = js "/w/a")) (js "/dst")
          [js "/w/a", js "/w/b"]).1 := by
  constructor
  · decide
  · decide

/-- **C7, amended.**  During a Copy-based paste, a destination collision (or
other filesystem error) on one item propagates out of the uncaught loop and
aborts the paste of the remaining items of the batch (only the items before
the failing one are copied, and the failing source is reported as the
rejection); clipboard paths that no longer exist on disk are silently
skipped without error. -/
theorem c7_copy_paste_errors (fsEx : JSStr → Bool) (copyFails : JSStr → JSStr → Bool)
    (targetDir : JSStr) :
    (∀ (pre : List JSStr) (src : JSStr) (rest : List JSStr),
        (∀ p ∈ pre, copyFails p (pasteDest targetDir p) = false) →
        fsEx src = true → copyFails src (pasteDest targetDir src) = true →
        pasteCopyRun fsEx copyFails targetDir (pre ++ src :: rest) =
          ((pre.filter fsEx).map fun p => (p, pasteDest targetDir p), some src))
    ∧ (∀ clip : List JSStr,
        (∀ p ∈ clip, copyFails p (pasteDest targetDir p) = false) →
        pasteCopyRun fsEx copyFails targetDir clip =
          ((clip.filter fsEx).map fun p => (p, pasteDest targetDir p), none)) := by
  constructor
  · intro pre src rest hok hsrc hfail
    induction pre with
    | nil =>
      simp only [List.nil_append, List.filter_nil, List.map_nil]
      unfold pasteCopyRun
      rw [if_pos hsrc, if_pos hfail]
    | cons p pre' ih =>
      have hp : copyFails p (pasteDest targetDir p) = false := hok p (by simp)
      have hok' : ∀ x ∈ pre', copyFails x (pasteDest targetDir x) = false :=
        fun x hx => hok x (List.mem_cons_of_mem p hx)
      by_cases hpe : fsEx p = true
      · simp only [List.cons_append]
        unfold pasteCopyRun
        rw [if_pos hpe, if_neg (by simp [hp]), ih hok']
        simp [List.filter_cons, hpe]
      · have hpe' : fsEx p = false := by simpa using hpe
        simp only [List.cons_append]
        unfold pasteCopyRun
        rw [if_neg (by simp [hpe']), ih hok']
        simp [List.filter_cons, hpe']
  · intro clip hok
    induction clip with
    | nil => rfl
    | cons p rest ih =>
      have hp : copyFails p (pasteDest targetDir p) = false := hok p (by simp)
      have hok' : ∀ x ∈ rest, copyFails x (pasteDest targetDir x) = false :=
        fun x hx => hok x (List.mem_cons_of_mem p hx)
      by_cases hpe : fsEx p = true
      · unfold pasteCopyRun
        rw [if_pos hpe, if_neg (by simp [hp]), ih hok']
        simp [List.filter_cons, hpe]
      · have hpe' : fsEx p = false := by simpa using hpe
        unfold pasteCopyRun
        rw [if_neg (by simp [hpe']), ih hok']
        simp [List.filter_cons, hpe']

/-- Witness for C7: a collision on the second item aborts the third; a
collision-free batch skips a vanished source silently and copies the rest. -/
theorem c7_witness :
    pasteCopyRun (fun _ => true) (fun s _ => decide (s = js "/w/b")) (js "/d")
        ([js "/w/a"] ++ js "/w/b" :: [js "/w/c"]) =
      ([(js "/w/a", pasteDest (js "/d") (js "/w/a"))], some (js "/w/b"))
    ∧ pasteCopyRun (fun p => decide (p ≠ js "/gone")) (fun _ _ => false) (js "/d")
        [js "/gone", js "/w/a"] =
      ([(js "/w/a", pasteDest (js "/d") (js "/w/a"))], none) := by
  constructor
  · exact (c7_copy_paste_errors (fun _ => true) (fun s _ => decide (s = js "/w/b"))
      (js "/d")).1 [js "/w/a"] (js "/w/b") [js "/w/c"] (by decide) (by decide) (by decide)
  · have h := (c7_copy_paste_errors (fun p => decide (p ≠ js "/gone")) (fun _ _ => false)
      (js "/d")).2 [js "/gone", js "/w/a"] (by decide)
    rw [h]
    decide

/-! ## C9: Descending is the exact reverse of Ascending -/

/-- **C9.**  For every entry list whose basenames are case-insensitively
unique, `_sortItems` in Descending mode produces exactly the reverse of
`_sortItems` in Ascending mode (both compare case-insensitively on the
final path component). -/
theorem c9_desc_is_reverse_of_asc (mtimeOf : JSStr → Int) (items : List FavoriteEntry)
    (hN : (items.map sortKey).Nodup) :
    sortItems mtimeOf SortOrder.DESC items =
      (sortItems mtimeOf SortOrder.ASC items).reverse := by
  by_cases hnil : items = []
  · subst hnil; simp [sortItems]
  · unfold sortItems
    rw [if_neg (by simp [hnil]), if_neg (by simp [hnil])]
    show items.mergeSort (fun a b => decide (sortKey b ≤ sortKey a)) =
      (items.mergeSort fun a b => decide (sortKey a ≤ sortKey b)).reverse
    have hperm_asc := List.mergeSort_perm items fun a b => decide (sortKey a ≤ sortKey b)
    have hperm_desc := List.mergeSort_perm items fun a b => decide (sortKey b ≤ sortKey a)
    have hsorted_asc :=
      @List.sorted_mergeSort _ (fun a b => decide (sortKey a ≤ sortKey b))
        (fun a b c hab hbc => by
          simp only [decide_eq_true_eq] at *
          exact le_trans hab hbc)
        (fun a b => by
          simp only [Bool.or_eq_true, decide_eq_true_eq]
          exact le_total _ _)
        items
    have hsorted_desc :=
      @List.sorted_mergeSort _ (fun a b => decide (sortKey b ≤ sortKey a))
        (fun a b c hab hbc => by
          simp only [decide_eq_true_eq] at *
          exact le_trans hbc hab)
        (fun a b => by
          simp only [Bool.or_eq_true, decide_eq_true_eq]
          exact le_total _ _)
        items
    have hN_asc :
        (((items.mergeSort fun a b => decide (sortKey a ≤ sortKey b)).map sortKey)).Nodup :=
      ((hperm_asc.map sortKey).nodup_iff).mpr hN
    have hN_desc :
        (((items.mergeSort fun a b => decide (sortKey b ≤ sortKey a)).map sortKey)).Nodup :=
      ((hperm_desc.map sortKey).nodup_iff).mpr hN
    have hpw_asc : List.Pairwise (fun a b => sortKey a < sortKey b)
        (items.mergeSort fun a b => decide (sortKey a ≤ sortKey b)) := by
      have h1 : List.Pairwise (fun a b : FavoriteEntry => sortKey a ≤ sortKey b)
          (items.mergeSort fun a b => decide (sortKey a ≤ sortKey b)) :=
        hsorted_asc.imp fun h => by simpa using h
      have h2 : List.Pairwise (fun a b : FavoriteEntry => sortKey a ≠ sortKey b)
          (items.mergeSort fun a b => decide (sortKey a ≤ sortKey b)) :=
        List.pairwise_map.mp hN_asc
      exact (h1.and h2).imp fun h => lt_of_le_of_ne h.1 h.2
    have hpw_desc : List.Pairwise (fun a b => sortKey b < sortKey a)
        (items.mergeSort fun a b => decide (sortKey b ≤ sortKey a)) := by
      have h1 : List.Pairwise (fun a b : FavoriteEntry => sortKey b ≤ sortKey a)
          (items.mergeSort fun a b => decide (sortKey b ≤ sortKey a)) :=
        hsorted_desc.imp fun h => by simpa using h
      have h2 : List.Pairwise (fun a b : FavoriteEntry => sortKey a ≠ sortKey b)
          (items.mergeSort fun a b => decide (sortKey b ≤ sortKey a)) :=
        List.pairwise_map.mp hN_desc
      exact (h1.and h2).imp fun h => lt_of_le_of_ne h.1 (Ne.symm h.2)
    have hpw_rev : List.Pairwise (fun a b => sortKey b < sortKey a)
        (items.mergeSort fun a b => decide (sortKey a ≤ sortKey b)).reverse :=
      List.pairwise_reverse.mpr hpw_asc
    have hperm : (items.mergeSort fun a b => decide (sortKey b ≤ sortKey a)).Perm
        (items.mergeSort fun a b => decide (sortKey a ≤ sortKey b)).reverse :=
      (hperm_desc.trans hperm_asc.symm).trans
        (List.reverse_perm (items.mergeSort fun a b => decide (sortKey a ≤ sortKey b))).symm
    haveI : IsAntisymm FavoriteEntry fun a b => sortKey b < sortKey a :=
      ⟨fun a b h1 h2 => absurd h1 (not_lt.mpr (le_of_lt h2))⟩
    exact List.eq_of_perm_of_sorted hperm hpw_desc hpw_rev

/-- Witness for C9 on a concrete list with case-insensitively unique
basenames (note `A.txt` sorts with `a.txt`'s key). -/
theorem c9_witness :
    (([⟨js "/w/b.txt", EntryType.file, none⟩, ⟨js "/w/A.txt", EntryType.file, none⟩,
       ⟨js "/w/c.txt", EntryType.file, none⟩].map sortKey).Nodup)
    ∧ sortItems (fun _ => 0) SortOrder.DESC
        [⟨js "/w/b.txt", EntryType.file, none⟩, ⟨js "/w/A.txt", EntryType.file, none⟩,
         ⟨js "/w/c.txt", EntryType.file, none⟩] =
      (sortItems (fun _ => 0) SortOrder.ASC
        [⟨js "/w/b.txt", EntryType.file, none⟩, ⟨js "/w/A.txt", EntryType.file, none⟩,
         ⟨js "/w/c.txt", EntryType.file, none⟩]).reverse :=
  ⟨by decide, c9_desc_is_reverse_of_asc _ _ (by decide)⟩

/-! ## C5: manual reordering within a category partition -/

theorem swap_facts (items : List FavoriteEntry) (hN : PathsNodup items)
    {t nb : FavoriteEntry} (ht : t ∈ items) (hn : nb ∈ items)
    (hne : t.path ≠ nb.path) :
    (items.findIdx fun e => decide (e.path = t.path)) < items.length
    ∧ (items.findIdx fun e => decide (e.path = nb.path)) < items.length
    ∧ (items.findIdx fun e => decide (e.path = t.path)) ≠
        (items.findIdx fun e => decide (e.path = nb.path))
    ∧ items.get? (items.findIdx fun e => decide (e.path = t.path)) = some t
    ∧ items.get? (items.findIdx fun e => decide (e.path = nb.path)) = some nb
    ∧ (listSwap items (items.findIdx fun e => decide (e.path = t.path))
        (items.findIdx fun e => decide (e.path = nb.path))).get?
        (items.findIdx fun e => decide (e.path = t.path)) = some nb
    ∧ (listSwap items (items.findIdx fun e => decide (e.path = t.path))
        (items.findIdx fun e => decide (e.path = nb.path))).get?
        (items.findIdx fun e => decide (e.path = nb.path)) = some t
    ∧ ∀ m, m ≠ (items.findIdx fun e => decide (e.path = t.path)) →
        m ≠ (items.findIdx fun e => decide (e.path = nb.path)) →
        (listSwap items (items.findIdx fun e => decide (e.path = t.path))
          (items.findIdx fun e => decide (e.path = nb.path))).get? m = items.get? m := by
  obtain ⟨i0, hi0, hti⟩ := List.getElem_of_mem ht
  obtain ⟨j0, hj0, hnj⟩ := List.getElem_of_mem hn
  have hidx_t : (items.findIdx fun e => decide (e.path = t.path)) = i0 :=
    findIdx_of_pathsNodup hN hi0 (by rw [hti])
  have hidx_n : (items.findIdx fun e => decide (e.path = nb.path)) = j0 :=
    findIdx_of_pathsNodup hN hj0 (by rw [hnj])
  have hij : i0 ≠ j0 := by
    intro hEq
    apply hne
    rw [← hti, ← hnj]
    subst hEq
    rfl
  rw [hidx_t, hidx_n]
  have hgi : items.get? i0 = some t := by
    rw [List.get?_eq_getElem?, List.getElem?_eq_getElem hi0, hti]
  have hgj : items.get? j0 = some nb := by
    rw [List.get?_eq_getElem?, List.getElem?_eq_getElem hj0, hnj]
  refine ⟨hi0, hj0, hij, hgi, hgj, ?_, ?_, ?_⟩
  · rw [listSwap_get?_snd items hi0 hj0, hgj]
  · rw [listSwap_get?_fst items hi0 hj0, hgi]
  · intro m h1 h2
    exact listSwap_get?_other items h1 h2

theorem partition_pathsNodup {items : List FavoriteEntry} (hN : PathsNodup items)
    (cat : Option JSStr) : PathsNodup (partitionOf items cat) :=
  List.Nodup.sublist (List.Sublist.map _ (List.filter_sublist items)) hN

/-- **C5.**  `moveUp` on the first entry of its category partition and
`moveDown` on the last are no-ops; otherwise the operation swaps the target
with its adjacent neighbour in the same-category sub-sequence at their true
indices in the full stored sequence: both swapped positions hold entries of
the target's category, and every other position (in particular every entry
of another category) is unchanged. -/
theorem c5_move_up_down (items : List FavoriteEntry) (p : JSStr) (cat : Option JSStr)
    (hN : PathsNodup items) :
    ((partitionOf items cat).findIdx? (fun e => decide (e.path = p)) = some 0 →
        moveUp items p cat = items)
    ∧ (∀ k, (partitionOf items cat).findIdx? (fun e => decide (e.path = p)) = some k →
        k + 1 = (partitionOf items cat).length → moveDown items p cat = items)
    ∧ (∀ k prev,
        (partitionOf items cat).findIdx? (fun e => decide (e.path = p)) = some (k + 1) →
        (partitionOf items cat).get? k = some prev →
        moveUp items p cat =
          listSwap items (items.findIdx fun e => decide (e.path = p))
            (items.findIdx fun e => decide (e.path = prev.path))
        ∧ (items.findIdx fun e => decide (e.path = p)) < items.length
        ∧ (items.findIdx fun e => decide (e.path = prev.path)) < items.length
        ∧ (items.findIdx fun e => decide (e.path = p)) ≠
            (items.findIdx fun e => decide (e.path = prev.path))
        ∧ items.get? (items.findIdx fun e => decide (e.path = p)) =
            (partitionOf items cat).get? (k + 1)
        ∧ items.get? (items.findIdx fun e => decide (e.path = prev.path)) = some prev
        ∧ categoryMatches cat prev = true
        ∧ (∀ e, items.get? (items.findIdx fun e => decide (e.path = p)) = some e →
            categoryMatches cat e = true)
        ∧ (moveUp items p cat).get? (items.findIdx fun e => decide (e.path = p)) =
            some prev
        ∧ (moveUp items p cat).get? (items.findIdx fun e => decide (e.path = prev.path)) =
            (partitionOf items cat).get? (k + 1)
        ∧ ∀ m, m ≠ (items.findIdx fun e => decide (e.path = p)) →
            m ≠ (items.findIdx fun e => decide (e.path = prev.path)) →
            (moveUp items p cat).get? m = items.get? m)
    ∧ (∀ k next,
        (partitionOf items cat).findIdx? (fun e => decide (e.path = p)) = some k →
        (partitionOf items cat).get? (k + 1) = some next →
        moveDown items p cat =
          listSwap items (items.findIdx fun e => decide (e.path = p))
            (items.findIdx fun e => decide (e.path = next.path))
        ∧ (items.findIdx fun e => decide (e.path = p)) < items.length
        ∧ (items.findIdx fun e => decide (e.path = next.path)) < items.length
        ∧ (items.findIdx fun e => decide (e.path = p)) ≠
            (items.findIdx fun e => decide (e.path = next.path))
        ∧ items.get? (items.findIdx fun e => decide (e.path = p)) =
            (partitionOf items cat).get? k
        ∧ items.get? (items.findIdx fun e => decide (e.path = next.path)) = some next
        ∧ categoryMatches cat next = true
        ∧ (∀ e, items.get? (items.findIdx fun e => decide (e.path = p)) = some e →
            categoryMatches cat e = true)
        ∧ (moveDown items p cat).get? (items.findIdx fun e => decide (e.path = p)) =
            some next
        ∧ (moveDown items p cat).get? (items.findIdx fun e => decide (e.path = next.path)) =
            (partitionOf items cat).get? k
        ∧ ∀ m, m ≠ (items.findIdx fun e => decide (e.path = p)) →
            m ≠ (items.findIdx fun e => decide (e.path = next.path)) →
            (moveDown items p cat).get? m = items.get? m) := by
  refine ⟨?_, ?_, ?_, ?_⟩
  · intro hk
    unfold moveUp
    rw [hk]
    rfl
  · intro k hk hlen
    obtain ⟨hnlt, hfidx⟩ := List.findIdx?_eq_some_iff_findIdx_eq.mp hk
    unfold moveDown
    rw [hk]
    simp only [moveDownGo]
    rw [if_neg (by omega)]
  · intro k prev hk hprevQ
    obtain ⟨hnlt, hfidx⟩ := List.findIdx?_eq_some_iff_findIdx_eq.mp hk
    have htpred := ((List.findIdx_eq hnlt).mp hfidx).1
    have htpath : (GetElem.getElem (partitionOf items cat) (k + 1) hnlt).path = p := by
      simpa using htpred
    have hprevE : (partitionOf items cat)[k]? = some prev := by
      rw [← List.get?_eq_getElem?]; exact hprevQ
    have hklt : k < (partitionOf items cat).length := (List.getElem?_eq_some.mp hprevE).1
    have hprev_eq : GetElem.getElem (partitionOf items cat) k hklt = prev :=
      (List.getElem?_eq_some.mp hprevE).2
    have htmem_scat : GetElem.getElem (partitionOf items cat) (k + 1) hnlt ∈ partitionOf items cat :=
      List.getElem_mem hnlt
    have htmem_filter : GetElem.getElem (partitionOf items cat) (k + 1) hnlt ∈
        items.filter (categoryMatches cat) := htmem_scat
    obtain ⟨htmem, htcat⟩ := List.mem_filter.mp htmem_filter
    have hprev_scat : prev ∈ partitionOf items cat := List.get?_mem hprevQ
    have hprev_filter : prev ∈ items.filter (categoryMatches cat) := hprev_scat
    obtain ⟨hprev_items, hprevcat⟩ := List.mem_filter.mp hprev_filter
    have hscatN := partition_pathsNodup hN cat
    have hpw := List.pairwise_map.mp hscatN
    have hne0 := (List.pairwise_iff_getElem.mp hpw) k (k + 1) hklt hnlt (Nat.lt_succ_self k)
    rw [hprev_eq] at hne0
    have hne : (GetElem.getElem (partitionOf items cat) (k + 1) hnlt).path ≠ prev.path := Ne.symm hne0
    have F := swap_facts items hN htmem hprev_items hne
    rw [htpath] at F
    obtain ⟨hi, hj, hij, hgi, hgj, hs1, hs2, hso⟩ := F
    have hmv : moveUp items p cat =
        listSwap items (items.findIdx fun e => decide (e.path = p))
          (items.findIdx fun e => decide (e.path = prev.path)) := by
      unfold moveUp
      rw [hk]
      simp only [moveUpGo]
      rw [hprevQ]
    have hscat_get : (partitionOf items cat).get? (k + 1) =
        some (GetElem.getElem (partitionOf items cat) (k + 1) hnlt) := by
      rw [List.get?_eq_getElem?, List.getElem?_eq_getElem hnlt]
    refine ⟨hmv, hi, hj, hij, ?_, hgj, hprevcat, ?_, ?_, ?_, ?_⟩
    · rw [hgi, hscat_get]
    · intro e he
      have := hgi.symm.trans he
      injection this with hEq
      rw [← hEq]
      exact htcat
    · rw [hmv]; exact hs1
    · rw [hmv, hs2, hscat_get]
    · intro m h1 h2
      rw [hmv]
      exact hso m h1 h2
  · intro k next hk hnextQ
    obtain ⟨hnlt, hfidx⟩ := List.findIdx?_eq_some_iff_findIdx_eq.mp hk
    have htpred := ((List.findIdx_eq hnlt).mp hfidx).1
    have htpath : (GetElem.getElem (partitionOf items cat) k hnlt).path = p := by
      simpa using htpred
    have hnextE : (partitionOf items cat)[k + 1]? = some next := by
      rw [← List.get?_eq_getElem?]; exact hnextQ
    have hklt1 : k + 1 < (partitionOf items cat).length :=
      (List.getElem?_eq_some.mp hnextE).1
    have hnext_eq : GetElem.getElem (partitionOf items cat) (k + 1) hklt1 = next :=
      (List.getElem?_eq_some.mp hnextE).2
    have htmem_scat : GetElem.getElem (partitionOf items cat) k hnlt ∈ partitionOf items cat :=
      List.getElem_mem hnlt
    have htmem_filter : GetElem.getElem (partitionOf items cat) k hnlt ∈
        items.filter (categoryMatches cat) := htmem_scat
    obtain ⟨htmem, htcat⟩ := List.mem_filter.mp htmem_filter
    have hnext_scat : next ∈ partitionOf items cat := List.get?_mem hnextQ
    have hnext_filter : next ∈ items.filter (categoryMatches cat) := hnext_scat
    obtain ⟨hnext_items, hnextcat⟩ := List.mem_filter.mp hnext_filter
    have hscatN := partition_pathsNodup hN cat
    have hpw := List.pairwise_map.mp hscatN
    have hne0 := (List.pairwise_iff_getElem.mp hpw) k (k + 1) hnlt hklt1 (Nat.lt_succ_self k)
    rw [hnext_eq] at hne0
    have hne : (GetElem.getElem (partitionOf items cat) k hnlt).path ≠ next.path := hne0
    have F := swap_facts items hN htmem hnext_items hne
    rw [htpath] at F
    obtain ⟨hi, hj, hij, hgi, hgj, hs1, hs2, hso⟩ := F
    have hmv : moveDown items p cat =
        listSwap items (items.findIdx fun e => decide (e.path = p))
          (items.findIdx fun e => decide (e.path = next.path)) := by
      unfold moveDown
      rw [hk]
      simp only [moveDownGo]
      rw [if_pos hklt1, hnextQ]
    have hscat_get : (partitionOf items cat).get? k =
        some (GetElem.getElem (partitionOf items cat) k hnlt) := by
      rw [List.get?_eq_getElem?, List.getElem?_eq_getElem hnlt]
    refine ⟨hmv, hi, hj, hij, ?_, hgj, hnextcat, ?_, ?_, ?_, ?_⟩
    · rw [hgi, hscat_get]
    · intro e he
      have := hgi.symm.trans he
      injection this with hEq
      rw [← hEq]
      exact htcat
    · rw [hmv]; exact hs1
    · rw [hmv, hs2, hscat_get]
    · intro m h1 h2
      rw [hmv]
      exact hso m h1 h2

/-- Witness for C5 on a concrete store whose root partition `[a, b, c]` is
interleaved with a categorised entry `k1`: `moveUp` on the partition's
first entry and `moveDown` on its last are no-ops, and `moveUp` on `b`
swaps it with `a` in the full sequence while `k1` keeps its position. -/
theorem c5_witness :
    moveUp
        [⟨js "/w/a", EntryType.file, none⟩, ⟨js "/w/k1", EntryType.file, some (js "g")⟩,
         ⟨js "/w/b", EntryType.file, none⟩, ⟨js "/w/c", EntryType.file, none⟩]
        (js "/w/a") none =
      [⟨js "/w/a", EntryType.file, none⟩, ⟨js "/w/k1", EntryType.file, some (js "g")⟩,
       ⟨js "/w/b", EntryType.file, none⟩, ⟨js "/w/c", EntryType.file, none⟩]
    ∧ moveDown
        [⟨js "/w/a", EntryType.file, none⟩, ⟨js "/w/k1", EntryType.file, some (js "g")⟩,
         ⟨js "/w/b", EntryType.file, none⟩, ⟨js "/w/c", EntryType.file, none⟩]
        (js "/w/c") none =
      [⟨js "/w/a", EntryType.file, none⟩, ⟨js "/w/k1", EntryType.file, some (js "g")⟩,
       ⟨js "/w/b", EntryType.file, none⟩, ⟨js "/w/c", EntryType.file, none⟩]
    ∧ moveUp
        [⟨js "/w/a", EntryType.file, none⟩, ⟨js "/w/k1", EntryType.file, some (js "g")⟩,
         ⟨js "/w/b", EntryType.file, none⟩, ⟨js "/w/c", EntryType.file, none⟩]
        (js "/w/b") none =
      [⟨js "/w/b", EntryType.file, none⟩, ⟨js "/w/k1", EntryType.file, some (js "g")⟩,
       ⟨js "/w/a", EntryType.file, none⟩, ⟨js "/w/c", EntryType.file, none⟩] := by
  refine ⟨?_, ?_, ?_⟩
  · exact (c5_move_up_down _ _ _ (by decide)).1 (by decide)
  · exact (c5_move_up_down _ _ _ (by decide)).2.1 2 (by decide) (by decide)
  · exact ((c5_move_up_down _ _ _ (by decide)).2.2.1 0
      ⟨js "/w/a", EntryType.file, none⟩ (by decide) (by decide)).1.trans (by decide)

/-! ## C6: persistence round-trip through the Path Normalizer -/

theorem splitSegs_joinSegs_append {A : List JSStr} (r : JSStr) (hA : A ≠ [])
    (hfree : ∀ s ∈ A, '/' ∉ s) :
    splitSegs (joinSegs A ++ '/' :: r) = A ++ splitSegs r := by
  induction A with
  | nil => exact absurd rfl hA
  | cons s ss ih =>
    cases ss with
    | nil =>
      have hs : '/' ∉ s := hfree s (by simp)
      simpa [joinSegs] using splitSegs_append_slash r hs
    | cons t ts =>
      have hs : '/' ∉ s := hfree s (by simp)
      have hfree' : ∀ x ∈ t :: ts, '/' ∉ x :=
        fun x hx => hfree x (List.mem_cons_of_mem s hx)
      rw [joinSegs_cons_cons, List.append_assoc, List.cons_append]
      rw [splitSegs_append_slash _ hs]
      rw [ih (by simp) hfree']
      simp

theorem normSegs_append_dot (abs : Bool) {segs : List JSStr}
    (h : ∀ s ∈ segs, NormalSeg s) :
    normSegs abs (segs ++ [['.']]) = segs := by
  unfold normSegs
  rw [List.foldl_append]
  have h1 : segs.foldl (normStep abs) [] = segs := normSegs_normal abs h
  rw [h1]
  simp [normStep]

/-- **C6.**  Path persistence round-trip: with a normalised absolute
workspace root, (a) the root itself persists as the `'.'` sentinel and
converts back to the root; (b) every normalised absolute path strictly
under the root persists relative and converts back to itself; (c) an
absolute path outside the root is stored absolute, unchanged by both
conversions. -/
theorem c6_roundtrip (rsegs : List JSStr) (hr : ∀ s ∈ rsegs, NormalSeg s)
    (hrne : rsegs ≠ []) :
    (toAbsolutePath (some ('/' :: joinSegs rsegs))
        (toRelativePath (some ('/' :: joinSegs rsegs)) ('/' :: joinSegs rsegs)) =
      '/' :: joinSegs rsegs)
    ∧ (∀ ssegs : List JSStr, (∀ s ∈ ssegs, NormalSeg s) → ssegs ≠ [] →
        toAbsolutePath (some ('/' :: joinSegs rsegs))
          (toRelativePath (some ('/' :: joinSegs rsegs))
            (('/' :: joinSegs rsegs) ++ '/' :: joinSegs ssegs)) =
          ('/' :: joinSegs rsegs) ++ '/' :: joinSegs ssegs)
    ∧ (∀ q : JSStr, isAbsolute q = true →
        ('/' :: joinSegs rsegs).isPrefixOf q = false →
        toRelativePath (some ('/' :: joinSegs rsegs)) q = q
        ∧ toAbsolutePath (some ('/' :: joinSegs rsegs)) q = q) := by
  have hrfree : ∀ s ∈ rsegs, '/' ∉ s := fun s hs => (hr s hs).2.1
  have hsplit_root : splitSegs ('/' :: joinSegs rsegs) = [] :: rsegs := by
    rw [splitSegs_slash_cons, splitSegs_joinSegs hrne hrfree]
  have hnorm_root : normSegs true (splitSegs ('/' :: joinSegs rsegs)) = rsegs := by
    rw [hsplit_root, normSegs_nil_cons, normSegs_normal true hr]
  refine ⟨?_, ?_, ?_⟩
  · -- the root itself: persists as '.', joins back to the root
    have hpre : ('/' :: joinSegs rsegs).isPrefixOf ('/' :: joinSegs rsegs) = true := by
      have h0 := isPrefixOf_append_self ('/' :: joinSegs rsegs) []
      rw [List.append_nil] at h0
      exact h0
    have hrel : pathRelative ('/' :: joinSegs rsegs) ('/' :: joinSegs rsegs) = [] := by
      unfold pathRelative
      rw [hnorm_root]
      have : dropCommon rsegs rsegs = ([], []) := by
        have := dropCommon_append rsegs []
        simpa using this
      rw [this]
      simp [joinSegs]
    have hstored : toRelativePath (some ('/' :: joinSegs rsegs)) ('/' :: joinSegs rsegs) =
        ['.'] := by
      simp only [toRelativePath]
      rw [if_pos hpre]
      simp [hrel]
    rw [hstored]
    simp only [toAbsolutePath]
    rw [if_neg (by simp [isAbsolute])]
    unfold pathJoin
    have hparts : [('/' :: joinSegs rsegs), ['.']].filter (fun s => decide (s ≠ [])) =
        [('/' :: joinSegs rsegs), ['.']] := by simp
    rw [hparts]
    rw [if_neg (by simp)]
    have hjoin2 : joinSegs [('/' :: joinSegs rsegs), ['.']] =
        ('/' :: joinSegs rsegs) ++ '/' :: ['.'] := by
      rw [joinSegs_cons_cons]
      simp [joinSegs]
    rw [hjoin2]
    unfold normalizePath
    have habs : isAbsolute (('/' :: joinSegs rsegs) ++ '/' :: ['.']) = true := by
      simp [isAbsolute]
    rw [habs]
    have hsplit : splitSegs ((('/' :: joinSegs rsegs) ++ '/' :: ['.'])) =
        [] :: (rsegs ++ [['.']]) := by
      rw [List.cons_append, splitSegs_slash_cons,
        splitSegs_joinSegs_append _ hrne hrfree]
      simp [splitSegs]
    simp only [hsplit, normSegs_nil_cons]
    rw [normSegs_append_dot true hr]
    simp
  · -- a strict descendant of the root
    intro ssegs hs hsne
    have hsfree : ∀ s ∈ ssegs, '/' ∉ s := fun s h => (hs s h).2.1
    have hsne' : ∀ s ∈ ssegs, s ≠ [] := fun s h => (hs s h).1
    have hpre : ('/' :: joinSegs rsegs).isPrefixOf
        (('/' :: joinSegs rsegs) ++ '/' :: joinSegs ssegs) = true :=
      isPrefixOf_append_self _ _
    have hall : ∀ s ∈ rsegs ++ ssegs, NormalSeg s := by
      intro s hmem
      rcases List.mem_append.mp hmem with h | h
      · exact hr s h
      · exact hs s h
    have hallfree : ∀ s ∈ rsegs ++ ssegs, '/' ∉ s := fun s h => (hall s h).2.1
    have hsplit_p : splitSegs (('/' :: joinSegs rsegs) ++ '/' :: joinSegs ssegs) =
        [] :: (rsegs ++ ssegs) := by
      rw [List.cons_append, splitSegs_slash_cons,
        splitSegs_joinSegs_append _ hrne hrfree,
        splitSegs_joinSegs hsne hsfree]
    have hnorm_p : normSegs true (splitSegs (('/' :: joinSegs rsegs) ++ '/' :: joinSegs ssegs)) =
        rsegs ++ ssegs := by
      rw [hsplit_p, normSegs_nil_cons, normSegs_normal true hall]
    have hrel : pathRelative ('/' :: joinSegs rsegs)
        (('/' :: joinSegs rsegs) ++ '/' :: joinSegs ssegs) = joinSegs ssegs := by
      unfold pathRelative
      rw [hnorm_root, hnorm_p, dropCommon_append]
      simp
    have hrelne : joinSegs ssegs ≠ [] := joinSegs_ne_nil hsne hsne'
    have hstored : toRelativePath (some ('/' :: joinSegs rsegs))
        (('/' :: joinSegs rsegs) ++ '/' :: joinSegs ssegs) = joinSegs ssegs := by
      simp only [toRelativePath]
      rw [if_pos hpre]
      rw [List.cons_append] at hrel
      simp [hrel, hrelne]
    rw [hstored]
    simp only [toAbsolutePath]
    rw [if_neg (by rw [isAbsolute_joinSegs hsne hs]; simp)]
    unfold pathJoin
    have hrootne : ('/' :: joinSegs rsegs : JSStr) ≠ [] := by simp
    have hparts : [('/' :: joinSegs rsegs), joinSegs ssegs].filter
        (fun s => decide (s ≠ [])) = [('/' :: joinSegs rsegs), joinSegs ssegs] := by
      simp [hrootne, hrelne]
    rw [hparts]
    rw [if_neg (by simp)]
    have hjoin2 : joinSegs [('/' :: joinSegs rsegs), joinSegs ssegs] =
        ('/' :: joinSegs rsegs) ++ '/' :: joinSegs ssegs := by
      rw [joinSegs_cons_cons]
      simp [joinSegs]
    rw [hjoin2]
    unfold normalizePath
    have habs : isAbsolute (('/' :: joinSegs rsegs) ++ '/' :: joinSegs ssegs) = true := by
      simp [isAbsolute]
    rw [habs]
    simp only [hnorm_p]
    rw [joinSegs_append hrne hsne]
    simp
  · -- outside the root
    intro q habs hnpre
    constructor
    · simp only [toRelativePath]
      rw [if_neg (by rw [hnpre]; simp)]
    · simp only [toAbsolutePath]
      rw [if_pos habs]

/-- Witness for C6: root `/w`, inner path `/w/a/b.txt`, outside path
`/etc/hosts`. -/
theorem c6_witness :
    toAbsolutePath (some (js "/w")) (toRelativePath (some (js "/w")) (js "/w")) = js "/w"
    ∧ toAbsolutePath (some (js "/w"))
        (toRelativePath (some (js "/w")) (js "/w/a/b.txt")) = js "/w/a/b.txt"
    ∧ toRelativePath (some (js "/w")) (js "/etc/hosts") = js "/etc/hosts"
    ∧ toAbsolutePath (some (js "/w")) (js "/etc/hosts") = js "/etc/hosts" := by
  have h := c6_roundtrip [js "w"] (by decide) (by decide)
  refine ⟨h.1, ?_, (h.2.2 (js "/etc/hosts") (by decide) (by decide)).1,
    (h.2.2 (js "/etc/hosts") (by decide) (by decide)).2⟩
  have h2 := h.2.1 [js "a", js "b.txt"] (by decide) (by decide)
  exact h2
